import Mathlib

/-!
Shallow embedding of the mosaic core of video_emojisaic.py: palette
construction (average_color, build_emoji_palette), region quantization
(nearest_emoji_index, build_emoji_grid), the greedy block merger
(largest_uniform_square together with the merge loop of mosaic_image),
and the compositor (canvas sizing and the paste operations of
mosaic_image).  Pixel channels are modelled as rationals on the 0..255
scale, machine floats being replaced by exact arithmetic.
-/

namespace Emojify

/-- An RGB color, three channels on the 0..255 scale. -/
abbrev Color : Type := ℚ × ℚ × ℚ

/-- Squared Euclidean RGB distance, one entry of
np.sum((palette_colors - color) ** 2, axis=1). -/
def sqDist (a b : Color) : ℚ :=
  (a.1 - b.1) ^ 2 + (a.2.1 - b.2.1) ^ 2 + (a.2.2 - b.2.2) ^ 2

/-- Running scan behind np.argmin: walk the remaining distances, keeping
the value and position of the first minimum seen so far. -/
def argminAux : List ℚ → ℚ → Nat → Nat → Nat
  | [], _, bestIdx, _ => bestIdx
  | d :: ds, bestVal, bestIdx, i =>
    if d < bestVal then argminAux ds d i (i + 1)
    else argminAux ds bestVal bestIdx (i + 1)

/-- np.argmin on a list of distances: the index of the first minimum.
On the empty list (where numpy raises) it returns 0. -/
def argmin : List ℚ → Nat
  | [] => 0
  | d :: ds => argminAux ds d 0 1

/-- nearest_emoji_index: vectorized nearest-neighbor match of a color
against the palette average colors. -/
def nearest_emoji_index (color : Color) (palette_colors : List Color) : Nat :=
  argmin (palette_colors.map fun p => sqDist p color)

/-! ### Block merger (largest_uniform_square and the merge loop) -/

/-- np.all(block == emoji_index) over the side × side block of the grid
anchored at (row, col). -/
def blockAll (grid : Nat → Nat → Nat) (row col side v : Nat) : Bool :=
  (List.range side).all fun i =>
    (List.range side).all fun j => grid (row + i) (col + j) == v

/-- np.any(covered[row : row + side, col : col + side]). -/
def blockAnyCovered (covered : Nat → Nat → Bool) (row col side : Nat) : Bool :=
  (List.range side).any fun i =>
    (List.range side).any fun j => covered (row + i) (col + j)

/-- The for-loop of largest_uniform_square: candidate sides are tried from
fuel down to 1, and the first side whose block is uniform and fully
uncovered is returned; none is the fall-through of the loop. -/
def findSide (grid : Nat → Nat → Nat) (covered : Nat → Nat → Bool)
    (row col v : Nat) : Nat → Option Nat
  | 0 => none
  | s + 1 =>
    if blockAll grid row col (s + 1) v && !blockAnyCovered covered row col (s + 1) then
      some (s + 1)
    else
      findSide grid covered row col v s

/-- largest_uniform_square: max_possible = min(max_side, rows - row, cols - col),
then the loop over candidate sides, with the trailing return 1 fallback
rendered by Option.getD. -/
def largest_uniform_square (grid : Nat → Nat → Nat) (covered : Nat → Nat → Bool)
    (rows cols row col emoji_index max_side : Nat) : Nat :=
  (findSide grid covered row col emoji_index
    (min max_side (min (rows - row) (cols - col)))).getD 1

/-- One (row, col, palette index, block side) record emitted by the merge
loop of mosaic_image. -/
structure Placement where
  row : Nat
  col : Nat
  idx : Nat
  side : Nat
deriving DecidableEq

/-- Membership of the cell (r, c) in the side × side footprint of a placement. -/
def inFootprint (p : Placement) (r c : Nat) : Bool :=
  decide (p.row ≤ r) && decide (r < p.row + p.side) &&
  decide (p.col ≤ c) && decide (c < p.col + p.side)

/-- covered[row : row + side, col : col + side] = True. -/
def markBlock (covered : Nat → Nat → Bool) (row col side : Nat) : Nat → Nat → Bool :=
  fun r c => covered r c ||
    (decide (row ≤ r) && decide (r < row + side) &&
     decide (col ≤ c) && decide (c < col + side))

theorem findSide_some_pos {grid : Nat → Nat → Nat} {covered : Nat → Nat → Bool}
    {row col v : Nat} :
    ∀ {fuel s : Nat}, findSide grid covered row col v fuel = some s → 1 ≤ s := by
  intro fuel
  induction fuel with
  | zero => intro s h; simp [findSide] at h
  | succ n ih =>
    intro s h
    rw [findSide] at h
    split at h
    · cases h; omega
    · exact ih h

theorem one_le_largest_uniform_square (grid : Nat → Nat → Nat)
    (covered : Nat → Nat → Bool) (rows cols row col v max_side : Nat) :
    1 ≤ largest_uniform_square grid covered rows cols row col v max_side := by
  unfold largest_uniform_square
  cases h : findSide grid covered row col v (min max_side (min (rows - row) (cols - col))) with
  | none => simp [Option.getD]
  | some s => simpa [Option.getD] using findSide_some_pos h

/-- The inner while-loop of mosaic_image for one row: skip covered cells,
otherwise resolve a block, mark it covered, emit the placement and advance
the column cursor past the block width. -/
def mergeRow (grid : Nat → Nat → Nat) (rows cols max_side row : Nat) :
    Nat → (Nat → Nat → Bool) → List Placement → (Nat → Nat → Bool) × List Placement
  | col, covered, acc =>
    if _hcol : col < cols then
      if covered row col then
        mergeRow grid rows cols max_side row (col + 1) covered acc
      else
        let v := grid row col
        let side := largest_uniform_square grid covered rows cols row col v max_side
        mergeRow grid rows cols max_side row (col + side)
          (markBlock covered row col side) (acc ++ [⟨row, col, v, side⟩])
    else
      (covered, acc)
  termination_by col _ _ => cols - col
  decreasing_by
  · omega
  · have h1 := one_le_largest_uniform_square grid covered rows cols row col (grid row col) max_side
    omega

/-- The outer for-loop of mosaic_image over rows, threading the coverage
mask and the list of emitted placements. -/
def mergeState (grid : Nat → Nat → Nat) (rows cols max_side : Nat) :
    (Nat → Nat → Bool) × List Placement :=
  (List.range rows).foldl
    (fun st row => mergeRow grid rows cols max_side row 0 st.1 st.2)
    (fun _ _ => false, [])

/-- The placements emitted by the merge loop of mosaic_image. -/
def mosaicPlacements (grid : Nat → Nat → Nat) (rows cols max_side : Nat) : List Placement :=
  (mergeState grid rows cols max_side).2

/-! ### Palette builder (average_color, build_emoji_palette) -/

/-- One pixel of a decoded RGBA image: red, green, blue, alpha on 0..255. -/
abbrev RGBA : Type := ℚ × ℚ × ℚ × ℚ

/-- A decoded image as average_color sees it: the numpy array has a last
dimension of either 4 (RGBA) or 3 (RGB). -/
inductive Decoded where
  | rgba (pixels : List RGBA)
  | rgb (pixels : List Color)

/-- The RGB part of an RGBA pixel (arr[..., :3]). -/
def rgbOf (p : RGBA) : Color := (p.1, p.2.1, p.2.2.1)

/-- The alpha channel of an RGBA pixel (arr[..., 3]). -/
def alphaOf (p : RGBA) : ℚ := p.2.2.2

/-- Per-channel mean of a list of RGB pixels (mean(axis=0) after
reshape(-1, 3)); on the empty list the rational division yields 0. -/
def meanRGB (l : List Color) : Color :=
  ((l.map fun p => p.1).sum / l.length,
   (l.map fun p => p.2.1).sum / l.length,
   (l.map fun p => p.2.2).sum / l.length)

/-- average_color: with an alpha channel present, average the RGB of the
pixels whose alpha / 255 is positive, falling back to black when no pixel
qualifies; without an alpha channel, average over all pixels. -/
def average_color : Decoded → Color
  | .rgba pixels =>
    let kept := pixels.filter fun p => decide (0 < alphaOf p / 255)
    if kept.isEmpty then (0, 0, 0) else meanRGB (kept.map rgbOf)
  | .rgb pixels => meanRGB pixels

/-- An image object handled by the compositor: a tile decoded from the
library (identified by file name, converted to RGBA) or the LANCZOS
resize of another image to a square of the given pixel side. -/
inductive Img where
  | loaded (name : String) (pixels : List RGBA)
  | resized (src : Img) (target : Nat)
deriving DecidableEq

/-- One directory entry: a file name together with the RGBA pixel data it
decodes to (Image.open(path).convert("RGBA")). -/
structure TileFile where
  name : String
  pixels : List RGBA
deriving DecidableEq

/-- build_emoji_palette: the files matching the glob pattern *.png, taken
in sorted name order; each contributes its average color and its LANCZOS
resize to a size × size square. -/
def build_emoji_palette (dir : List TileFile) (size : Nat) : List Color × List Img :=
  let files := (dir.filter fun f => f.name.endsWith ".png").mergeSort
    fun a b => decide (a.name ≤ b.name)
  (files.map fun f => average_color (.rgba f.pixels),
   files.map fun f => Img.resized (Img.loaded f.name f.pixels) size)

/-- The main driver's handling of the --max-emoji-block argument:
max_emoji_block = max(1, args.max_emoji_block). -/
def main_max_emoji_block (arg : Int) : Int := max 1 arg

/-! ### Region quantizer (build_emoji_grid) -/

/-- A decoded RGB source image: its dimensions and the pixel at row y,
column x, channels on the 0..255 scale. -/
structure SrcImage where
  width : Nat
  height : Nat
  pix : Nat → Nat → Color

/-- Sum of a channel over the pixel slice [top:bottom, left:right]. -/
def sliceSum (f : Nat → Nat → ℚ) (top bottom left right : Nat) : ℚ :=
  (Finset.range (bottom - top)).sum fun i =>
    (Finset.range (right - left)).sum fun j => f (top + i) (left + j)

/-- Per-channel mean of the pixel slice pixels[top:bottom, left:right]
(tile_pixels.reshape(-1, 3).mean(axis=0)). -/
def sliceMean (img : SrcImage) (top bottom left right : Nat) : Color :=
  let n : ℚ := ((bottom - top) * (right - left) : ℕ)
  (sliceSum (fun y x => (img.pix y x).1) top bottom left right / n,
   sliceSum (fun y x => (img.pix y x).2.1) top bottom left right / n,
   sliceSum (fun y x => (img.pix y x).2.2) top bottom left right / n)

/-- math.ceil(a / b) on natural numbers. -/
def ceilDiv (a b : Nat) : Nat := (a + b - 1) / b

/-- rows = math.ceil(height / size). -/
def gridRows (img : SrcImage) (size : Nat) : Nat := ceilDiv img.height size

/-- cols = math.ceil(width / size). -/
def gridCols (img : SrcImage) (size : Nat) : Nat := ceilDiv img.width size

/-- build_emoji_grid: the palette index of the region at grid position
(y, x); the region is the size × size pixel block at (y·size, x·size)
with its bottom and right edges clipped to the image bounds. -/
def build_emoji_grid (img : SrcImage) (size : Nat) (palette_colors : List Color) :
    Nat → Nat → Nat :=
  fun y x =>
    nearest_emoji_index
      (sliceMean img (y * size) (min (y * size + size) img.height)
        (x * size) (min (x * size + size) img.width))
      palette_colors

/-! ### Compositor (the canvas and paste side of mosaic_image) -/

/-- One out.paste(emoji, pos, mask) call recorded by the compositor. -/
structure PasteOp where
  img : Img
  posX : Nat
  posY : Nat
  mask : Img
deriving DecidableEq

/-- The output canvas: an RGB buffer of the stated pixel dimensions
together with the paste operations applied to it, in order. -/
structure Canvas where
  width : Nat
  height : Nat
  pastes : List PasteOp
deriving DecidableEq

/-- The compositing body of the merge loop for one resolved placement:
select the palette image, resize it to target_size = side · size · zoom
unless side and zoom are both 1, and paste it at pixel offset
(col · size · zoom, row · size · zoom) masked by its own alpha channel. -/
def pasteOfPlacement (palette_images : List Img) (size zoom : Nat) (p : Placement) : PasteOp :=
  let emoji := palette_images.getD p.idx (Img.loaded "" [])
  let target_size := p.side * size * zoom
  let emoji2 := if p.side ≠ 1 ∨ zoom ≠ 1 then Img.resized emoji target_size else emoji
  { img := emoji2, posX := p.col * size * zoom, posY := p.row * size * zoom, mask := emoji2 }

/-- mosaic_image: quantize the image to a grid, merge blocks, and
composite the placements onto a canvas of
(cols · size · zoom) × (rows · size · zoom) pixels. -/
def mosaic_image (img : SrcImage) (palette_colors : List Color) (palette_images : List Img)
    (size zoom max_emoji_block : Nat) : Canvas :=
  let grid := build_emoji_grid img size palette_colors
  let rows := gridRows img size
  let cols := gridCols img size
  { width := cols * size * zoom, height := rows * size * zoom,
    pastes := (mosaicPlacements grid rows cols max_emoji_block).map
      (pasteOfPlacement palette_images size zoom) }

/-! ### Lemmas about the block checks and the side search -/

theorem blockAll_eq_true_iff {grid : Nat → Nat → Nat} {row col side v : Nat} :
    blockAll grid row col side v = true ↔
      ∀ i < side, ∀ j < side, grid (row + i) (col + j) = v := by
  simp [blockAll]

theorem blockAnyCovered_eq_false_iff {covered : Nat → Nat → Bool} {row col side : Nat} :
    blockAnyCovered covered row col side = false ↔
      ∀ i < side, ∀ j < side, covered (row + i) (col + j) = false := by
  simp [blockAnyCovered]

/-- A candidate block side at (row, col) in the sense of the side search:
at least 1, within all three caps, uniform in the value v, and wholly
uncovered. -/
def GoodSide (grid : Nat → Nat → Nat) (covered : Nat → Nat → Bool)
    (rows cols row col v max_side s : Nat) : Prop :=
  1 ≤ s ∧ s ≤ min max_side (min (rows - row) (cols - col)) ∧
  (∀ i < s, ∀ j < s, grid (row + i) (col + j) = v) ∧
  (∀ i < s, ∀ j < s, covered (row + i) (col + j) = false)

theorem findSide_some_le {grid : Nat → Nat → Nat} {covered : Nat → Nat → Bool}
    {row col v : Nat} :
    ∀ {fuel s : Nat}, findSide grid covered row col v fuel = some s → s ≤ fuel := by
  intro fuel
  induction fuel with
  | zero => intro s h; simp [findSide] at h
  | succ n ih =>
    intro s h
    rw [findSide] at h
    split at h
    · cases h; omega
    · have := ih h; omega

theorem findSide_some_cond {grid : Nat → Nat → Nat} {covered : Nat → Nat → Bool}
    {row col v : Nat} :
    ∀ {fuel s : Nat}, findSide grid covered row col v fuel = some s →
      blockAll grid row col s v = true ∧ blockAnyCovered covered row col s = false := by
  intro fuel
  induction fuel with
  | zero => intro s h; simp [findSide] at h
  | succ n ih =>
    intro s h
    rw [findSide] at h
    split at h
    · rename_i hcond
      cases h
      simp only [Bool.and_eq_true, Bool.not_eq_true'] at hcond
      exact hcond
    · exact ih h

theorem findSide_some_max {grid : Nat → Nat → Nat} {covered : Nat → Nat → Bool}
    {row col v : Nat} :
    ∀ {fuel s : Nat}, findSide grid covered row col v fuel = some s →
      ∀ t, s < t → t ≤ fuel → blockAll grid row col t v = true →
        blockAnyCovered covered row col t = false → False := by
  intro fuel
  induction fuel with
  | zero => intro s h; simp [findSide] at h
  | succ n ih =>
    intro s h t hst htf hall hcov
    rw [findSide] at h
    split at h
    · cases h; omega
    · rename_i hcond
      rcases Nat.lt_or_ge t (n + 1) with ht | ht
      · exact ih h t hst (by omega) hall hcov
      · have : t = n + 1 := by omega
        subst this
        rw [hall, hcov] at hcond
        simp at hcond

theorem findSide_isSome_of_good {grid : Nat → Nat → Nat} {covered : Nat → Nat → Bool}
    {row col v : Nat} :
    ∀ {fuel s : Nat}, 1 ≤ s → s ≤ fuel → blockAll grid row col s v = true →
      blockAnyCovered covered row col s = false →
      (findSide grid covered row col v fuel).isSome := by
  intro fuel
  induction fuel with
  | zero => intro s h1 h2 _ _; omega
  | succ n ih =>
    intro s h1 h2 hall hcov
    rw [findSide]
    split
    · simp
    · rename_i hcond
      rcases Nat.lt_or_ge s (n + 1) with hs | hs
      · exact ih h1 (by omega) hall hcov
      · have : s = n + 1 := by omega
        subst this
        rw [hall, hcov] at hcond
        simp at hcond

/-- Shared specification of largest_uniform_square at an uncovered
in-bounds anchor cell holding the queried value: the loop finds a side
(the fallback is not taken), and that side is the largest candidate. -/
theorem lusFound {grid : Nat → Nat → Nat} {covered : Nat → Nat → Bool}
    {rows cols row col v max_side : Nat}
    (hrow : row < rows) (hcol : col < cols)
    (hunc : covered row col = false) (hv : grid row col = v) (hms : 1 ≤ max_side) :
    findSide grid covered row col v (min max_side (min (rows - row) (cols - col))) =
      some (largest_uniform_square grid covered rows cols row col v max_side) ∧
    GoodSide grid covered rows cols row col v max_side
      (largest_uniform_square grid covered rows cols row col v max_side) ∧
    ∀ s, GoodSide grid covered rows cols row col v max_side s →
      s ≤ largest_uniform_square grid covered rows cols row col v max_side := by
  have hall1 : blockAll grid row col 1 v = true := by
    rw [blockAll_eq_true_iff]
    intro i hi j hj
    interval_cases i
    interval_cases j
    simpa using hv
  have hcov1 : blockAnyCovered covered row col 1 = false := by
    rw [blockAnyCovered_eq_false_iff]
    intro i hi j hj
    interval_cases i
    interval_cases j
    simpa using hunc
  have hfuel : 1 ≤ min max_side (min (rows - row) (cols - col)) := by omega
  have hsome := @findSide_isSome_of_good grid covered row col v
    (min max_side (min (rows - row) (cols - col))) 1
    le_rfl hfuel hall1 hcov1
  obtain ⟨s, hs⟩ := Option.isSome_iff_exists.mp hsome
  have hlus : largest_uniform_square grid covered rows cols row col v max_side = s := by
    unfold largest_uniform_square
    rw [hs]
    rfl
  rw [hlus, hs]
  refine ⟨rfl, ?_, ?_⟩
  · obtain ⟨hall, hcov⟩ := findSide_some_cond hs
    exact ⟨findSide_some_pos hs, findSide_some_le hs,
      blockAll_eq_true_iff.mp hall, blockAnyCovered_eq_false_iff.mp hcov⟩
  · intro t ht
    obtain ⟨ht1, ht2, htall, htcov⟩ := ht
    by_contra hlt
    exact findSide_some_max hs t (by omega) ht2
      (blockAll_eq_true_iff.mpr htall) (blockAnyCovered_eq_false_iff.mpr htcov)

/-- C2: for every grid, coverage mask, uncovered in-bounds cell (row, col)
holding value v, and max_side ≥ 1, largest_uniform_square returns the
largest side s with 1 ≤ s ≤ min(max_side, rows − row, cols − col) such
that the s × s block anchored at (row, col) is uniformly v and no cell of
it is covered (the loop examining candidate sides from largest to
smallest). -/
theorem largest_uniform_square_is_greedy_max
    (grid : Nat → Nat → Nat) (covered : Nat → Nat → Bool)
    (rows cols row col v max_side : Nat)
    (hrow : row < rows) (hcol : col < cols)
    (hunc : covered row col = false) (hv : grid row col = v) (hms : 1 ≤ max_side) :
    GoodSide grid covered rows cols row col v max_side
      (largest_uniform_square grid covered rows cols row col v max_side) ∧
    ∀ s, GoodSide grid covered rows cols row col v max_side s →
      s ≤ largest_uniform_square grid covered rows cols row col v max_side := by
  obtain ⟨-, hgood, hmax⟩ := lusFound hrow hcol hunc hv hms
  exact ⟨hgood, hmax⟩

theorem largest_uniform_square_is_greedy_max_witness :
    (0 : Nat) < 3 ∧ (0 : Nat) < 3 ∧ (fun _ _ => false : Nat → Nat → Bool) 0 0 = false ∧
      (fun _ _ => 5 : Nat → Nat → Nat) 0 0 = 5 ∧ (1 : Nat) ≤ 2 ∧
      (GoodSide (fun _ _ => 5) (fun _ _ => false) 3 3 0 0 5 2
        (largest_uniform_square (fun _ _ => 5) (fun _ _ => false) 3 3 0 0 5 2) ∧
      ∀ s, GoodSide (fun _ _ => 5) (fun _ _ => false) 3 3 0 0 5 2 s →
        s ≤ largest_uniform_square (fun _ _ => 5) (fun _ _ => false) 3 3 0 0 5 2) :=
  ⟨by decide, by decide, by decide, by decide, by decide,
    largest_uniform_square_is_greedy_max (fun _ _ => 5) (fun _ _ => false) 3 3 0 0 5 2
      (by decide) (by decide) (by decide) (by decide) (by decide)⟩

/-- C10: whenever largest_uniform_square is called on an in-bounds
uncovered cell whose grid value equals the queried index and with
max_side ≥ 1, the side-1 candidate qualifies, the loop returns without
reaching the trailing return-1 fallback, and the returned side lies in
the range 1 ≤ side ≤ min(max_side, rows − row, cols − col). -/
theorem largest_uniform_square_fallback_unreachable
    (grid : Nat → Nat → Nat) (covered : Nat → Nat → Bool)
    (rows cols row col v max_side : Nat)
    (hrow : row < rows) (hcol : col < cols)
    (hunc : covered row col = false) (hv : grid row col = v) (hms : 1 ≤ max_side) :
    GoodSide grid covered rows cols row col v max_side 1 ∧
    findSide grid covered row col v (min max_side (min (rows - row) (cols - col))) =
      some (largest_uniform_square grid covered rows cols row col v max_side) ∧
    1 ≤ largest_uniform_square grid covered rows cols row col v max_side ∧
    largest_uniform_square grid covered rows cols row col v max_side ≤
      min max_side (min (rows - row) (cols - col)) := by
  obtain ⟨hfound, hgood, -⟩ := lusFound hrow hcol hunc hv hms
  refine ⟨?_, hfound, hgood.1, hgood.2.1⟩
  refine ⟨le_rfl, by omega, ?_, ?_⟩
  · intro i hi j hj
    interval_cases i
    interval_cases j
    simpa using hv
  · intro i hi j hj
    interval_cases i
    interval_cases j
    simpa using hunc

theorem largest_uniform_square_fallback_unreachable_witness :
    (1 : Nat) < 4 ∧ (2 : Nat) < 4 ∧
      (fun r c => decide (r = 0 ∧ c = 0) : Nat → Nat → Bool) 1 2 = false ∧
      (fun r c => r + c : Nat → Nat → Nat) 1 2 = 3 ∧ (1 : Nat) ≤ 5 ∧
      (GoodSide (fun r c => r + c) (fun r c => decide (r = 0 ∧ c = 0)) 4 4 1 2 3 5 1 ∧
      findSide (fun r c => r + c) (fun r c => decide (r = 0 ∧ c = 0)) 1 2 3
          (min 5 (min (4 - 1) (4 - 2))) =
        some (largest_uniform_square (fun r c => r + c)
          (fun r c => decide (r = 0 ∧ c = 0)) 4 4 1 2 3 5) ∧
      1 ≤ largest_uniform_square (fun r c => r + c)
          (fun r c => decide (r = 0 ∧ c = 0)) 4 4 1 2 3 5 ∧
      largest_uniform_square (fun r c => r + c)
          (fun r c => decide (r = 0 ∧ c = 0)) 4 4 1 2 3 5 ≤
        min 5 (min (4 - 1) (4 - 2))) :=
  ⟨by decide, by decide, by decide, by decide, by decide,
    largest_uniform_square_fallback_unreachable (fun r c => r + c)
      (fun r c => decide (r = 0 ∧ c = 0)) 4 4 1 2 3 5
      (by decide) (by decide) (by decide) (by decide) (by decide)⟩

/-! ### The argmin scan -/

theorem argminAux_go (l : List ℚ) :
    ∀ (k bi i : Nat), i + k = l.length → bi < i →
      (∀ j, j < i → l.getD bi 0 ≤ l.getD j 0) →
      (∀ j, j < i → l.getD j 0 = l.getD bi 0 → bi ≤ j) →
      argminAux (l.drop i) (l.getD bi 0) bi i < l.length ∧
      (∀ j, j < l.length →
        l.getD (argminAux (l.drop i) (l.getD bi 0) bi i) 0 ≤ l.getD j 0) ∧
      (∀ j, j < l.length →
        l.getD j 0 = l.getD (argminAux (l.drop i) (l.getD bi 0) bi i) 0 →
        argminAux (l.drop i) (l.getD bi 0) bi i ≤ j) := by
  intro k
  induction k with
  | zero =>
    intro bi i hlen hbi hmin hfirst
    have hdrop : l.drop i = [] := by
      apply List.drop_eq_nil_of_le
      omega
    rw [hdrop]
    simp only [argminAux]
    exact ⟨by omega, fun j hj => hmin j (by omega), fun j hj => hfirst j (by omega)⟩
  | succ n ih =>
    intro bi i hlen hbi hmin hfirst
    have hi : i < l.length := by omega
    have hdrop : l.drop i = l.getD i 0 :: l.drop (i + 1) := by
      rw [List.getD_eq_getElem l 0 hi]
      exact List.drop_eq_getElem_cons hi
    rw [hdrop]
    simp only [argminAux]
    by_cases hlt : l.getD i 0 < l.getD bi 0
    · rw [if_pos hlt]
      refine ih i (i + 1) (by omega) (by omega) ?_ ?_
      · intro j hj
        rcases Nat.lt_or_ge j i with hj2 | hj2
        · exact le_trans (le_of_lt hlt) (hmin j hj2)
        · have : j = i := by omega
          subst this
          exact le_rfl
      · intro j hj heq
        rcases Nat.lt_or_ge j i with hj2 | hj2
        · have h1 := hmin j hj2
          rw [heq] at h1
          exact absurd hlt (not_lt.mpr h1)
        · omega
    · rw [if_neg hlt]
      refine ih bi (i + 1) (by omega) (by omega) ?_ ?_
      · intro j hj
        rcases Nat.lt_or_ge j i with hj2 | hj2
        · exact hmin j hj2
        · have : j = i := by omega
          subst this
          exact le_of_not_lt hlt
      · intro j hj heq
        rcases Nat.lt_or_ge j i with hj2 | hj2
        · exact hfirst j hj2 heq
        · omega

/-- The index returned by argmin is the position of the first minimum of
the distance list. -/
theorem argmin_spec (l : List ℚ) (hne : l ≠ []) :
    argmin l < l.length ∧
    (∀ j, j < l.length → l.getD (argmin l) 0 ≤ l.getD j 0) ∧
    (∀ j, j < l.length → l.getD j 0 = l.getD (argmin l) 0 → argmin l ≤ j) := by
  cases l with
  | nil => exact absurd rfl hne
  | cons d ds =>
    have h0 : (d :: ds).getD 0 0 = d := rfl
    have hdrop : (d :: ds).drop 1 = ds := rfl
    have hgo := argminAux_go (d :: ds) ds.length 0 1 (by simp; omega) (by omega)
      (fun j hj => by interval_cases j; exact le_rfl)
      (fun j hj _ => by omega)
    rw [hdrop, h0] at hgo
    exact hgo

theorem sqDist_comm (a b : Color) : sqDist a b = sqDist b a := by
  unfold sqDist
  ring

/-- C4: for every region mean color and non-empty palette,
nearest_emoji_index returns the index minimizing the squared Euclidean
RGB distance from the region color to the palette entry, ties (exact
distance equality) resolving to the lowest such index; in particular a
single-tile palette quantizes every region to index 0. -/
theorem nearest_emoji_index_min_tie_lowest (color : Color) (palette : List Color)
    (hne : palette ≠ []) :
    nearest_emoji_index color palette < palette.length ∧
    (∀ j, j < palette.length →
      sqDist color (palette.getD (nearest_emoji_index color palette) (0, 0, 0)) ≤
        sqDist color (palette.getD j (0, 0, 0))) ∧
    (∀ j, j < palette.length →
      sqDist color (palette.getD j (0, 0, 0)) =
        sqDist color (palette.getD (nearest_emoji_index color palette) (0, 0, 0)) →
      nearest_emoji_index color palette ≤ j) ∧
    (palette.length = 1 → nearest_emoji_index color palette = 0) := by
  have hlen : (palette.map fun p => sqDist p color).length = palette.length :=
    List.length_map _ _
  have hl : ∀ j, j < palette.length →
      (palette.map fun p => sqDist p color).getD j 0 =
        sqDist color (palette.getD j (0, 0, 0)) := by
    intro j hj
    rw [List.getD_eq_getElem _ _ (by omega), List.getElem_map,
      List.getD_eq_getElem _ _ hj, sqDist_comm]
  have hlne : (palette.map fun p => sqDist p color) ≠ [] := by
    intro h
    apply hne
    simpa using congrArg List.length h
  obtain ⟨h1, h2, h3⟩ := argmin_spec _ hlne
  rw [hlen] at h1
  have hnn : nearest_emoji_index color palette = argmin (palette.map fun p => sqDist p color) :=
    rfl
  refine ⟨by rw [hnn]; exact h1, ?_, ?_, ?_⟩
  · intro j hj
    rw [hnn, ← hl _ (by rw [← hnn]; exact h1), ← hl _ hj]
    exact h2 j (by omega)
  · intro j hj heq
    rw [hnn]
    refine h3 j (by omega) ?_
    rw [hl _ hj, hl _ (by rw [← hnn]; exact h1)]
    exact heq
  · intro hone
    rw [hnn]
    omega

theorem nearest_emoji_index_min_tie_lowest_witness :
    ([((0 : ℚ), (0 : ℚ), (0 : ℚ)), ((255 : ℚ), (255 : ℚ), (255 : ℚ))] : List Color) ≠ [] ∧
      (nearest_emoji_index ((10 : ℚ), (10 : ℚ), (10 : ℚ))
          [((0 : ℚ), (0 : ℚ), (0 : ℚ)), ((255 : ℚ), (255 : ℚ), (255 : ℚ))] <
        ([((0 : ℚ), (0 : ℚ), (0 : ℚ)), ((255 : ℚ), (255 : ℚ), (255 : ℚ))] : List Color).length ∧
      (∀ j, j < ([((0 : ℚ), (0 : ℚ), (0 : ℚ)), ((255 : ℚ), (255 : ℚ), (255 : ℚ))] : List Color).length →
        sqDist ((10 : ℚ), (10 : ℚ), (10 : ℚ))
            (([((0 : ℚ), (0 : ℚ), (0 : ℚ)), ((255 : ℚ), (255 : ℚ), (255 : ℚ))] : List Color).getD
              (nearest_emoji_index ((10 : ℚ), (10 : ℚ), (10 : ℚ))
                [((0 : ℚ), (0 : ℚ), (0 : ℚ)), ((255 : ℚ), (255 : ℚ), (255 : ℚ))]) (0, 0, 0)) ≤
          sqDist ((10 : ℚ), (10 : ℚ), (10 : ℚ))
            (([((0 : ℚ), (0 : ℚ), (0 : ℚ)), ((255 : ℚ), (255 : ℚ), (255 : ℚ))] : List Color).getD j (0, 0, 0))) ∧
      (∀ j, j < ([((0 : ℚ), (0 : ℚ), (0 : ℚ)), ((255 : ℚ), (255 : ℚ), (255 : ℚ))] : List Color).length →
        sqDist ((10 : ℚ), (10 : ℚ), (10 : ℚ))
            (([((0 : ℚ), (0 : ℚ), (0 : ℚ)), ((255 : ℚ), (255 : ℚ), (255 : ℚ))] : List Color).getD j (0, 0, 0)) =
          sqDist ((10 : ℚ), (10 : ℚ), (10 : ℚ))
            (([((0 : ℚ), (0 : ℚ), (0 : ℚ)), ((255 : ℚ), (255 : ℚ), (255 : ℚ))] : List Color).getD
              (nearest_emoji_index ((10 : ℚ), (10 : ℚ), (10 : ℚ))
                [((0 : ℚ), (0 : ℚ), (0 : ℚ)), ((255 : ℚ), (255 : ℚ), (255 : ℚ))]) (0, 0, 0)) →
        nearest_emoji_index ((10 : ℚ), (10 : ℚ), (10 : ℚ))
            [((0 : ℚ), (0 : ℚ), (0 : ℚ)), ((255 : ℚ), (255 : ℚ), (255 : ℚ))] ≤ j) ∧
      (([((0 : ℚ), (0 : ℚ), (0 : ℚ)), ((255 : ℚ), (255 : ℚ), (255 : ℚ))] : List Color).length = 1 →
        nearest_emoji_index ((10 : ℚ), (10 : ℚ), (10 : ℚ))
          [((0 : ℚ), (0 : ℚ), (0 : ℚ)), ((255 : ℚ), (255 : ℚ), (255 : ℚ))] = 0)) :=
  ⟨by decide,
    nearest_emoji_index_min_tie_lowest ((10 : ℚ), (10 : ℚ), (10 : ℚ))
      [((0 : ℚ), (0 : ℚ), (0 : ℚ)), ((255 : ℚ), (255 : ℚ), (255 : ℚ))] (by decide)⟩

/-! ### The coverage invariant of the merge loop -/

theorem inFootprint_eq_true_iff (p : Placement) (r c : Nat) :
    inFootprint p r c = true ↔
      p.row ≤ r ∧ r < p.row + p.side ∧ p.col ≤ c ∧ c < p.col + p.side := by
  simp [inFootprint, and_assoc]

theorem markBlock_eq_true_iff (covered : Nat → Nat → Bool) (row col side r c : Nat) :
    markBlock covered row col side r c = true ↔
      covered r c = true ∨ (row ≤ r ∧ r < row + side ∧ col ≤ c ∧ c < col + side) := by
  simp [markBlock, and_assoc]

/-- The central invariant of the merge phase: a cell is marked in the
coverage mask exactly when it lies in the footprint of exactly one
emitted placement (and of none otherwise), and every emitted placement
fits inside the grid with 1 ≤ side ≤ max_side. -/
def MergeInv (rows cols max_side : Nat) (covered : Nat → Nat → Bool)
    (acc : List Placement) : Prop :=
  (∀ r c, (acc.countP fun p => inFootprint p r c) = if covered r c = true then 1 else 0) ∧
  ∀ p ∈ acc, p.row + p.side ≤ rows ∧ p.col + p.side ≤ cols ∧ 1 ≤ p.side ∧ p.side ≤ max_side

theorem mergeInv_extend {rows cols max_side row col v side : Nat}
    {covered : Nat → Nat → Bool} {acc : List Placement}
    (hInv : MergeInv rows cols max_side covered acc)
    (hr : row + side ≤ rows) (hc : col + side ≤ cols)
    (h1 : 1 ≤ side) (hm : side ≤ max_side)
    (hunc : ∀ i < side, ∀ j < side, covered (row + i) (col + j) = false) :
    MergeInv rows cols max_side (markBlock covered row col side)
      (acc ++ [⟨row, col, v, side⟩]) := by
  obtain ⟨hcount, hbound⟩ := hInv
  constructor
  · intro r c
    rw [List.countP_append]
    have hsingle : (List.countP (fun p => inFootprint p r c) [⟨row, col, v, side⟩]) =
        if (row ≤ r ∧ r < row + side ∧ col ≤ c ∧ c < col + side) then 1 else 0 := by
      rw [List.countP_cons, List.countP_nil]
      by_cases hin : row ≤ r ∧ r < row + side ∧ col ≤ c ∧ c < col + side
      · rw [if_pos hin, if_pos (inFootprint_eq_true_iff ⟨row, col, v, side⟩ r c |>.mpr hin)]
      · rw [if_neg hin]
        rw [if_neg]
        intro habs
        exact hin ((inFootprint_eq_true_iff ⟨row, col, v, side⟩ r c).mp habs)
    rw [hsingle, hcount r c]
    by_cases hin : row ≤ r ∧ r < row + side ∧ col ≤ c ∧ c < col + side
    · have hcv : covered r c = false := by
        have h := hunc (r - row) (by omega) (c - col) (by omega)
        have e1 : row + (r - row) = r := by omega
        have e2 : col + (c - col) = c := by omega
        rwa [e1, e2] at h
      have hmk : markBlock covered row col side r c = true :=
        (markBlock_eq_true_iff covered row col side r c).mpr (Or.inr hin)
      rw [if_pos hin, hcv, hmk]
      simp
    · have hdec : (decide (row ≤ r) && decide (r < row + side) &&
          decide (col ≤ c) && decide (c < col + side)) = false := by
        simp only [← Bool.decide_and]
        apply decide_eq_false
        tauto
      have hmk : markBlock covered row col side r c = covered r c := by
        unfold markBlock
        rw [hdec, Bool.or_false]
      rw [if_neg hin, hmk]
      omega
  · intro p hp
    rcases List.mem_append.mp hp with h | h
    · exact hbound p h
    · have : p = ⟨row, col, v, side⟩ := by simpa using h
      subst this
      exact ⟨hr, hc, h1, hm⟩

theorem markBlock_monotone {covered : Nat → Nat → Bool} {row col side r c : Nat}
    (h : covered r c = true) : markBlock covered row col side r c = true :=
  (markBlock_eq_true_iff covered row col side r c).mpr (Or.inl h)

/-- Invariant preservation through the inner while-loop of the merge
phase: processing one row keeps the coverage/placement invariant, leaves
every cell of that row covered, and only ever adds coverage. -/
theorem mergeRow_invariant (grid : Nat → Nat → Nat) (rows cols max_side row : Nat)
    (hrow : row < rows) (hms : 1 ≤ max_side) :
    ∀ n col covered acc, cols - col ≤ n →
      MergeInv rows cols max_side covered acc →
      (∀ c, c < col → c < cols → covered row c = true) →
      MergeInv rows cols max_side
          (mergeRow grid rows cols max_side row col covered acc).1
          (mergeRow grid rows cols max_side row col covered acc).2 ∧
        (∀ c, c < cols → (mergeRow grid rows cols max_side row col covered acc).1 row c = true) ∧
        (∀ r c, covered r c = true →
          (mergeRow grid rows cols max_side row col covered acc).1 r c = true) := by
  intro n
  induction n with
  | zero =>
    intro col covered acc hn hInv hprev
    have hcol : ¬ col < cols := by omega
    rw [mergeRow, dif_neg hcol]
    exact ⟨hInv, fun c hc => hprev c (by omega) hc, fun r c h => h⟩
  | succ n ih =>
    intro col covered acc hn hInv hprev
    rw [mergeRow]
    by_cases hcol : col < cols
    · rw [dif_pos hcol]
      by_cases hcv : covered row col = true
      · rw [if_pos hcv]
        refine ih (col + 1) covered acc (by omega) hInv ?_
        intro c hc hc2
        rcases Nat.lt_or_ge c col with h | h
        · exact hprev c h hc2
        · have : c = col := by omega
          subst this
          exact hcv
      · rw [if_neg hcv]
        have hcvf : covered row col = false := by
          cases h : covered row col
          · rfl
          · exact absurd h hcv
        obtain ⟨-, hgood, -⟩ := @lusFound grid covered rows cols row col (grid row col)
          max_side hrow hcol hcvf rfl hms
        obtain ⟨h1, hcap, hall, huncov⟩ := hgood
        set s := largest_uniform_square grid covered rows cols row col (grid row col) max_side
          with hs
        have hrb : row + s ≤ rows := by omega
        have hcb : col + s ≤ cols := by omega
        have hsm : s ≤ max_side := by omega
        have hInv2 := mergeInv_extend (v := grid row col) hInv hrb hcb h1 hsm huncov
        have hprev2 : ∀ c, c < col + s → c < cols →
            markBlock covered row col s row c = true := by
          intro c hc hc2
          rcases Nat.lt_or_ge c col with h | h
          · exact markBlock_monotone (hprev c h hc2)
          · exact (markBlock_eq_true_iff covered row col s row c).mpr
              (Or.inr ⟨le_rfl, by omega, h, hc⟩)
        have hres := ih (col + s) (markBlock covered row col s)
          (acc ++ [⟨row, col, grid row col, s⟩]) (by omega) hInv2 hprev2
        exact ⟨hres.1, hres.2.1, fun r c h => hres.2.2 r c (markBlock_monotone h)⟩
    · rw [dif_neg hcol]
      exact ⟨hInv, fun c hc => hprev c (by omega) hc, fun r c h => h⟩

/-- Invariant preservation through the outer row loop: after folding the
remaining rows, the invariant holds and every cell of the grid is
covered. -/
theorem foldRows_invariant (grid : Nat → Nat → Nat) (rows cols max_side : Nat)
    (hms : 1 ≤ max_side) :
    ∀ k R (covered : Nat → Nat → Bool) (acc : List Placement), R + k = rows →
      MergeInv rows cols max_side covered acc →
      (∀ r c, r < R → c < cols → covered r c = true) →
      MergeInv rows cols max_side
          ((List.range' R k).foldl
            (fun st row => mergeRow grid rows cols max_side row 0 st.1 st.2) (covered, acc)).1
          ((List.range' R k).foldl
            (fun st row => mergeRow grid rows cols max_side row 0 st.1 st.2) (covered, acc)).2 ∧
        ∀ r c, r < rows → c < cols →
          ((List.range' R k).foldl
            (fun st row => mergeRow grid rows cols max_side row 0 st.1 st.2) (covered, acc)).1
            r c = true := by
  intro k
  induction k with
  | zero =>
    intro R covered acc hR hInv hdone
    simp only [List.range'_zero, List.foldl_nil]
    exact ⟨hInv, fun r c hr hc => hdone r c (by omega) hc⟩
  | succ n ih =>
    intro R covered acc hR hInv hdone
    rw [List.range'_succ, List.foldl_cons]
    have hrowR : R < rows := by omega
    have hrow := mergeRow_invariant grid rows cols max_side R hrowR hms
      cols 0 covered acc (by omega) hInv (by omega)
    refine ih (R + 1)
      (mergeRow grid rows cols max_side R 0 covered acc).1
      (mergeRow grid rows cols max_side R 0 covered acc).2
      (by omega) hrow.1 ?_
    intro r c hr hc
    rcases Nat.lt_or_ge r R with h | h
    · exact hrow.2.2 r c (hdone r c h hc)
    · have : r = R := by omega
      subst this
      exact hrow.2.1 c hc

/-- End state of the merge loop: the invariant holds and the coverage
mask is all-true on the grid. -/
theorem mergeState_invariant (grid : Nat → Nat → Nat) (rows cols max_side : Nat)
    (hms : 1 ≤ max_side) :
    MergeInv rows cols max_side
        (mergeState grid rows cols max_side).1 (mergeState grid rows cols max_side).2 ∧
      ∀ r c, r < rows → c < cols → (mergeState grid rows cols max_side).1 r c = true := by
  have h := foldRows_invariant grid rows cols max_side hms rows 0
    (fun _ _ => false) [] (by omega) ⟨fun r c => by simp, fun p hp => absurd hp (by simp)⟩
    (by omega)
  rw [← List.range_eq_range'] at h
  exact h

/-- C1: for every grid of shape rows × cols and every max_side ≥ 1, the
placements emitted by the merge loop of mosaic_image partition the cell
set: every footprint lies fully inside the grid, and every cell of the
grid lies in the side × side footprint of exactly one placement — no
gaps and no overlaps. -/
theorem mosaicPlacements_partition (grid : Nat → Nat → Nat) (rows cols max_side : Nat)
    (hms : 1 ≤ max_side) :
    (∀ p ∈ mosaicPlacements grid rows cols max_side,
      p.row + p.side ≤ rows ∧ p.col + p.side ≤ cols) ∧
    ∀ r c, r < rows → c < cols →
      ((mosaicPlacements grid rows cols max_side).countP fun p => inFootprint p r c) = 1 := by
  obtain ⟨⟨hcount, hbound⟩, hfull⟩ := mergeState_invariant grid rows cols max_side hms
  refine ⟨fun p hp => ⟨(hbound p hp).1, (hbound p hp).2.1⟩, ?_⟩
  intro r c hr hc
  have hP : mosaicPlacements grid rows cols max_side = (mergeState grid rows cols max_side).2 :=
    rfl
  rw [hP, hcount r c, if_pos (hfull r c hr hc)]

theorem mosaicPlacements_partition_witness :
    (1 : Nat) ≤ 2 ∧
      ((∀ p ∈ mosaicPlacements (fun r c => r + c) 2 3 2,
        p.row + p.side ≤ 2 ∧ p.col + p.side ≤ 3) ∧
      ∀ r c, r < 2 → c < 3 →
        ((mosaicPlacements (fun r c => r + c) 2 3 2).countP fun p => inFootprint p r c) = 1) :=
  ⟨by decide, mosaicPlacements_partition (fun r c => r + c) 2 3 2 (by decide)⟩

/-! ### Counting placements for the degenerate max_side = 1 case -/

theorem countP_eq_sum_map (l : List Placement) (f : Placement → Bool) :
    l.countP f = (l.map fun p => if f p then 1 else 0).sum := by
  induction l with
  | nil => rfl
  | cons a t ih =>
    rw [List.countP_cons, List.map_cons, List.sum_cons, ih]
    omega

theorem sum_finset_sum_list (s : Finset (Nat × Nat)) (l : List Placement)
    (g : Placement → Nat × Nat → ℕ) :
    (s.sum fun x => (l.map fun p => g p x).sum) = (l.map fun p => s.sum (g p)).sum := by
  induction l with
  | nil => simp
  | cons a t ih =>
    simp only [List.map_cons, List.sum_cons]
    rw [Finset.sum_add_distrib, ih]

theorem filter_range_interval (n a b : Nat) (h : a + b ≤ n) :
    (Finset.range n).filter (fun r => a ≤ r ∧ r < a + b) = Finset.Ico a (a + b) := by
  ext r
  simp only [Finset.mem_filter, Finset.mem_range, Finset.mem_Ico]
  omega

theorem sum_interval_indicator (n a b : Nat) (h : a + b ≤ n) :
    ((Finset.range n).sum fun r => if a ≤ r ∧ r < a + b then (1 : ℕ) else 0) = b := by
  classical
  rw [Finset.sum_boole, filter_range_interval n a b h]
  simp

theorem footprint_indicator_decomp (p : Placement) (r c : Nat) :
    (if inFootprint p r c then (1 : ℕ) else 0) =
      (if p.row ≤ r ∧ r < p.row + p.side then (1 : ℕ) else 0) *
      (if p.col ≤ c ∧ c < p.col + p.side then (1 : ℕ) else 0) := by
  by_cases h1 : p.row ≤ r ∧ r < p.row + p.side <;>
    by_cases h2 : p.col ≤ c ∧ c < p.col + p.side <;>
      simp [inFootprint_eq_true_iff, h1, h2]

theorem sum_indicator_footprint (p : Placement) (rows cols : Nat)
    (hr : p.row + p.side ≤ rows) (hc : p.col + p.side ≤ cols) :
    (((Finset.range rows) ×ˢ (Finset.range cols)).sum
      fun x => if inFootprint p x.1 x.2 then (1 : ℕ) else 0) = p.side * p.side := by
  rw [Finset.sum_product]
  have hinner : ∀ r, ((Finset.range cols).sum
      fun c => if inFootprint p r c then (1 : ℕ) else 0) =
      (if p.row ≤ r ∧ r < p.row + p.side then (1 : ℕ) else 0) * p.side := by
    intro r
    rw [Finset.sum_congr rfl fun c _ => footprint_indicator_decomp p r c,
      ← Finset.mul_sum, sum_interval_indicator cols p.col p.side hc]
  rw [Finset.sum_congr rfl fun r _ => hinner r, ← Finset.sum_mul,
    sum_interval_indicator rows p.row p.side hr]

theorem list_sum_map_one (l : List Placement) : (l.map fun _ => (1 : ℕ)).sum = l.length := by
  induction l with
  | nil => rfl
  | cons a t ih => simp [ih]; omega

/-- C7: for every grid and max_side ≥ 1, every emitted placement has
side ≤ max_side; and in the degenerate case max_side = 1 the merger
emits exactly rows · cols placements, each of side 1. -/
theorem mosaicPlacements_side_le_and_degenerate (grid : Nat → Nat → Nat)
    (rows cols max_side : Nat) (hms : 1 ≤ max_side) :
    (∀ p ∈ mosaicPlacements grid rows cols max_side, p.side ≤ max_side) ∧
    (max_side = 1 →
      (mosaicPlacements grid rows cols max_side).length = rows * cols ∧
      ∀ p ∈ mosaicPlacements grid rows cols max_side, p.side = 1) := by
  obtain ⟨⟨hcount, hbound⟩, hfull⟩ := mergeState_invariant grid rows cols max_side hms
  have hP : mosaicPlacements grid rows cols max_side = (mergeState grid rows cols max_side).2 :=
    rfl
  refine ⟨fun p hp => (hbound p (by rw [← hP]; exact hp)).2.2.2, ?_⟩
  intro hone
  have hside1 : ∀ p ∈ mosaicPlacements grid rows cols max_side, p.side = 1 := by
    intro p hp
    have := hbound p (by rw [← hP]; exact hp)
    omega
  refine ⟨?_, hside1⟩
  have hswap := sum_finset_sum_list ((Finset.range rows) ×ˢ (Finset.range cols))
    (mosaicPlacements grid rows cols max_side)
    (fun p x => if inFootprint p x.1 x.2 then 1 else 0)
  have hlhs : (((Finset.range rows) ×ˢ (Finset.range cols)).sum
      fun x => ((mosaicPlacements grid rows cols max_side).map
        fun p => if inFootprint p x.1 x.2 then (1 : ℕ) else 0).sum) = rows * cols := by
    have hcell : ∀ x ∈ (Finset.range rows) ×ˢ (Finset.range cols),
        ((mosaicPlacements grid rows cols max_side).map
          fun p => if inFootprint p x.1 x.2 then (1 : ℕ) else 0).sum = 1 := by
      intro x hx
      obtain ⟨hx1, hx2⟩ := Finset.mem_product.mp hx
      rw [Finset.mem_range] at hx1 hx2
      rw [← countP_eq_sum_map, hP, hcount x.1 x.2, if_pos (hfull x.1 x.2 hx1 hx2)]
    rw [Finset.sum_congr rfl hcell, Finset.sum_const, Finset.card_product,
      Finset.card_range, Finset.card_range, smul_eq_mul, mul_one]
  have hrhs : ((mosaicPlacements grid rows cols max_side).map
      fun p => (((Finset.range rows) ×ˢ (Finset.range cols)).sum
        fun x => if inFootprint p x.1 x.2 then (1 : ℕ) else 0)).sum =
      (mosaicPlacements grid rows cols max_side).length := by
    have hone2 : ∀ p ∈ mosaicPlacements grid rows cols max_side,
        (((Finset.range rows) ×ˢ (Finset.range cols)).sum
          fun x => if inFootprint p x.1 x.2 then (1 : ℕ) else 0) = 1 := by
      intro p hp
      have hb := hbound p (by rw [← hP]; exact hp)
      rw [sum_indicator_footprint p rows cols hb.1 hb.2.1, hside1 p hp]
    rw [List.map_congr_left hone2, list_sum_map_one]
  omega

theorem mosaicPlacements_side_le_and_degenerate_witness :
    (1 : Nat) ≤ 1 ∧
      ((∀ p ∈ mosaicPlacements (fun r c => r * c) 2 3 1, p.side ≤ 1) ∧
      ((1 : Nat) = 1 →
        (mosaicPlacements (fun r c => r * c) 2 3 1).length = 2 * 3 ∧
        ∀ p ∈ mosaicPlacements (fun r c => r * c) 2 3 1, p.side = 1)) :=
  ⟨by decide, mosaicPlacements_side_le_and_degenerate (fun r c => r * c) 2 3 1 (by decide)⟩

/-! ### Palette averaging (C5) -/

theorem alpha_div_pos_iff (a : ℚ) : 0 < a / 255 ↔ 0 < a := by
  rw [div_pos_iff]
  constructor
  · rintro (⟨h, -⟩ | ⟨-, h⟩)
    · exact h
    · norm_num at h
  · intro h
    exact Or.inl ⟨h, by norm_num⟩

theorem average_color_filter_eq (pixels : List RGBA) :
    (pixels.filter fun p => decide (0 < alphaOf p / 255)) =
      (pixels.filter fun p => decide (0 < alphaOf p)) := by
  apply List.filter_congr
  intro p _
  exact decide_eq_decide.mpr (alpha_div_pos_iff (alphaOf p))

/-- C5: with an alpha channel present, average_color is the mean of the
RGB channels over exactly the pixels whose alpha is strictly greater
than zero; when no pixel has positive alpha the result is pure black
(0, 0, 0) rather than an error; with no alpha channel it is the mean
over all pixels. -/
theorem average_color_spec (pixels : List RGBA) (rgbPixels : List Color) :
    ((∃ p ∈ pixels, 0 < alphaOf p) →
      average_color (.rgba pixels) =
        meanRGB ((pixels.filter fun p => decide (0 < alphaOf p)).map rgbOf)) ∧
    ((∀ p ∈ pixels, alphaOf p ≤ 0) → average_color (.rgba pixels) = (0, 0, 0)) ∧
    average_color (.rgb rgbPixels) = meanRGB rgbPixels := by
  refine ⟨?_, ?_, rfl⟩
  · intro hex
    obtain ⟨p, hp, hpos⟩ := hex
    have hmem : p ∈ pixels.filter fun q => decide (0 < alphaOf q / 255) := by
      rw [List.mem_filter]
      exact ⟨hp, by rw [decide_eq_true_eq]; exact (alpha_div_pos_iff (alphaOf p)).mpr hpos⟩
    have hne : (pixels.filter fun q => decide (0 < alphaOf q / 255)).isEmpty = false := by
      cases h : (pixels.filter fun q => decide (0 < alphaOf q / 255)) with
      | nil => rw [h] at hmem; cases hmem
      | cons a t => rfl
    show (if (pixels.filter fun q => decide (0 < alphaOf q / 255)).isEmpty then ((0 : ℚ), (0 : ℚ), (0 : ℚ))
      else meanRGB ((pixels.filter fun q => decide (0 < alphaOf q / 255)).map rgbOf)) = _
    rw [hne]
    simp only [Bool.false_eq_true, if_false]
    rw [average_color_filter_eq]
  · intro hall
    have hnil : (pixels.filter fun q => decide (0 < alphaOf q / 255)) = [] := by
      rw [average_color_filter_eq]
      apply List.filter_eq_nil_iff.mpr
      intro p hp
      rw [decide_eq_true_eq]
      exact not_lt.mpr (hall p hp)
    show (if (pixels.filter fun q => decide (0 < alphaOf q / 255)).isEmpty then ((0 : ℚ), (0 : ℚ), (0 : ℚ))
      else meanRGB ((pixels.filter fun q => decide (0 < alphaOf q / 255)).map rgbOf)) = _
    rw [hnil]
    rfl

theorem average_color_spec_witness :
    (∃ p ∈ [(((10 : ℚ), (20 : ℚ), (30 : ℚ), (255 : ℚ)) : RGBA),
        (((1 : ℚ), (2 : ℚ), (3 : ℚ), (0 : ℚ)) : RGBA)], 0 < alphaOf p) ∧
      average_color (.rgba [(((10 : ℚ), (20 : ℚ), (30 : ℚ), (255 : ℚ)) : RGBA),
          (((1 : ℚ), (2 : ℚ), (3 : ℚ), (0 : ℚ)) : RGBA)]) =
        meanRGB (([(((10 : ℚ), (20 : ℚ), (30 : ℚ), (255 : ℚ)) : RGBA),
          (((1 : ℚ), (2 : ℚ), (3 : ℚ), (0 : ℚ)) : RGBA)].filter
            fun p => decide (0 < alphaOf p)).map rgbOf) :=
  ⟨by decide,
    (average_color_spec [(((10 : ℚ), (20 : ℚ), (30 : ℚ), (255 : ℚ)) : RGBA),
      (((1 : ℚ), (2 : ℚ), (3 : ℚ), (0 : ℚ)) : RGBA)] []).1 (by decide)⟩

/-! ### Grid shape and regions (C6) -/

theorem ceilDiv_cast (h s : Nat) (hs : 0 < s) :
    ((ceilDiv h s : ℕ) : ℤ) = Int.ceil ((h : ℚ) / (s : ℚ)) := by
  have hsq : (0 : ℚ) < (s : ℚ) := by exact_mod_cast hs
  have heq : ceilDiv h s = h ⌈/⌉ s := rfl
  have hle : h ≤ s * ceilDiv h s := by
    rw [heq]
    simpa [smul_eq_mul] using le_smul_ceilDiv (b := h) hs
  symm
  rw [Int.ceil_eq_iff]
  constructor
  · rcases Nat.eq_zero_or_pos (ceilDiv h s) with h0 | hpos
    · have hh : h = 0 := by
        rw [h0] at hle
        omega
      rw [h0, hh]
      norm_num
    · have hlt2 : s * (ceilDiv h s - 1) < h := by
        by_contra hc
        push_neg at hc
        have : ceilDiv h s ≤ ceilDiv h s - 1 := by
          conv_lhs => rw [heq]
          exact (ceilDiv_le_iff_le_mul hs).mpr (by simpa [smul_eq_mul] using hc)
        omega
      rw [lt_div_iff₀ hsq]
      have h1 : ((ceilDiv h s : ℤ) : ℚ) - 1 = ((ceilDiv h s - 1 : ℕ) : ℚ) := by
        rw [Nat.cast_sub hpos]
        push_cast
        ring
      rw [h1]
      have h2 : (ceilDiv h s - 1) * s < h := by
        calc (ceilDiv h s - 1) * s = s * (ceilDiv h s - 1) := by ring
          _ < h := hlt2
      exact_mod_cast h2
  · rw [div_le_iff₀ hsq]
    push_cast
    calc (h : ℚ) ≤ (s : ℚ) * (ceilDiv h s : ℚ) := by exact_mod_cast hle
      _ = (ceilDiv h s : ℚ) * (s : ℚ) := by ring

theorem anchor_lt_of_lt_ceilDiv {h s y : Nat} (hs : 0 < s) (hy : y < ceilDiv h s) :
    y * s < h := by
  by_contra hc
  push_neg at hc
  have : ceilDiv h s ≤ y := by
    have heq : ceilDiv h s = h ⌈/⌉ s := rfl
    rw [heq]
    refine (ceilDiv_le_iff_le_mul hs).mpr ?_
    simpa [smul_eq_mul, Nat.mul_comm] using hc
  omega

/-- The region cells as the spec describes them: the pixels (py, px) of
the image lying in the size × size block anchored at (y·size, x·size). -/
def specRegionCells (img : SrcImage) (size y x : Nat) : Finset (Nat × Nat) :=
  ((Finset.range img.height) ×ˢ (Finset.range img.width)).filter
    fun q => y * size ≤ q.1 ∧ q.1 < y * size + size ∧ x * size ≤ q.2 ∧ q.2 < x * size + size

/-- The region color as the spec describes it: the per-channel mean over
the region cells. -/
def specRegionMean (img : SrcImage) (size y x : Nat) : Color :=
  (((specRegionCells img size y x).sum fun q => (img.pix q.1 q.2).1) /
    (specRegionCells img size y x).card,
   ((specRegionCells img size y x).sum fun q => (img.pix q.1 q.2).2.1) /
    (specRegionCells img size y x).card,
   ((specRegionCells img size y x).sum fun q => (img.pix q.1 q.2).2.2) /
    (specRegionCells img size y x).card)

theorem specRegionCells_eq (img : SrcImage) (size y x : Nat) :
    specRegionCells img size y x =
      (Finset.Ico (y * size) (min (y * size + size) img.height)) ×ˢ
      (Finset.Ico (x * size) (min (x * size + size) img.width)) := by
  ext q
  simp only [specRegionCells, Finset.mem_filter, Finset.mem_product, Finset.mem_range,
    Finset.mem_Ico]
  omega

/-- The clipped slice taken by build_emoji_grid enumerates exactly the
spec-side region cells, so the two mean colors agree. -/
theorem sliceMean_eq_specRegionMean (img : SrcImage) (size y x : Nat) :
    sliceMean img (y * size) (min (y * size + size) img.height)
      (x * size) (min (x * size + size) img.width) = specRegionMean img size y x := by
  have hsum : ∀ g : Nat → Nat → ℚ,
      ((specRegionCells img size y x).sum fun q => g q.1 q.2) =
      sliceSum g (y * size) (min (y * size + size) img.height)
        (x * size) (min (x * size + size) img.width) := by
    intro g
    rw [specRegionCells_eq, Finset.sum_product, sliceSum, Finset.sum_Ico_eq_sum_range]
    refine Finset.sum_congr rfl fun i _ => ?_
    rw [Finset.sum_Ico_eq_sum_range]
  have hcard : ((specRegionCells img size y x).card : ℚ) =
      (((min (y * size + size) img.height - y * size) *
        (min (x * size + size) img.width - x * size) : ℕ) : ℚ) := by
    rw [specRegionCells_eq, Finset.card_product, Nat.card_Ico, Nat.card_Ico]
  simp only [specRegionMean, sliceMean]
  rw [hsum (fun a b => (img.pix a b).1), hsum (fun a b => (img.pix a b).2.1),
    hsum (fun a b => (img.pix a b).2.2), hcard]

/-- C6: for every source image and positive tile size S, the grid has
rows = ceil(height / S) and cols = ceil(width / S); the palette index at
grid cell (y, x) is the nearest-palette index of the mean of the R, G, B
channels over exactly the pixels of the S × S block anchored at
(y·S, x·S) clipped to the image bounds; and clipping (not padding) never
empties an in-range region. -/
theorem build_emoji_grid_shape_and_regions (img : SrcImage) (size : Nat)
    (palette_colors : List Color) (hsz : 0 < size) :
    ((gridRows img size : ℤ) = Int.ceil ((img.height : ℚ) / (size : ℚ))) ∧
    ((gridCols img size : ℤ) = Int.ceil ((img.width : ℚ) / (size : ℚ))) ∧
    (∀ y x, build_emoji_grid img size palette_colors y x =
      nearest_emoji_index (specRegionMean img size y x) palette_colors) ∧
    (∀ y x, y < gridRows img size → x < gridCols img size →
      (specRegionCells img size y x).Nonempty) := by
  refine ⟨ceilDiv_cast img.height size hsz, ceilDiv_cast img.width size hsz, ?_, ?_⟩
  · intro y x
    unfold build_emoji_grid
    rw [sliceMean_eq_specRegionMean]
  · intro y x hy hx
    refine ⟨(y * size, x * size), ?_⟩
    rw [specRegionCells_eq]
    rw [Finset.mem_product, Finset.mem_Ico, Finset.mem_Ico]
    have h1 : y * size < img.height := anchor_lt_of_lt_ceilDiv hsz hy
    have h2 : x * size < img.width := anchor_lt_of_lt_ceilDiv hsz hx
    omega

theorem build_emoji_grid_shape_and_regions_witness :
    (0 : Nat) < 2 ∧
      ((((gridRows ⟨3, 5, fun _ _ => ((7 : ℚ), (7 : ℚ), (7 : ℚ))⟩ 2 : ℕ) : ℤ) =
        Int.ceil (((5 : ℕ) : ℚ) / ((2 : ℕ) : ℚ))) ∧
      ((((gridCols ⟨3, 5, fun _ _ => ((7 : ℚ), (7 : ℚ), (7 : ℚ))⟩ 2 : ℕ) : ℤ) =
        Int.ceil (((3 : ℕ) : ℚ) / ((2 : ℕ) : ℚ))) ∧
      (∀ y x, build_emoji_grid ⟨3, 5, fun _ _ => ((7 : ℚ), (7 : ℚ), (7 : ℚ))⟩ 2
          [((0 : ℚ), (0 : ℚ), (0 : ℚ))] y x =
        nearest_emoji_index
          (specRegionMean ⟨3, 5, fun _ _ => ((7 : ℚ), (7 : ℚ), (7 : ℚ))⟩ 2 y x)
          [((0 : ℚ), (0 : ℚ), (0 : ℚ))]) ∧
      (∀ y x, y < gridRows ⟨3, 5, fun _ _ => ((7 : ℚ), (7 : ℚ), (7 : ℚ))⟩ 2 →
        x < gridCols ⟨3, 5, fun _ _ => ((7 : ℚ), (7 : ℚ), (7 : ℚ))⟩ 2 →
        (specRegionCells ⟨3, 5, fun _ _ => ((7 : ℚ), (7 : ℚ), (7 : ℚ))⟩ 2 y x).Nonempty))) :=
  ⟨by decide,
    build_emoji_grid_shape_and_regions ⟨3, 5, fun _ _ => ((7 : ℚ), (7 : ℚ), (7 : ℚ))⟩ 2
      [((0 : ℚ), (0 : ℚ), (0 : ℚ))] (by decide)⟩

/-! ### Compositor (C8) -/

theorem mosaicPlacements_side_pos (grid : Nat → Nat → Nat) (rows cols max_side : Nat)
    (hms : 1 ≤ max_side) :
    ∀ p ∈ mosaicPlacements grid rows cols max_side, 1 ≤ p.side := by
  obtain ⟨⟨-, hbound⟩, -⟩ := mergeState_invariant grid rows cols max_side hms
  exact fun p hp => (hbound p hp).2.2.1

/-- The paste operation as the spec words it: the tile for the palette
index, resized to a side · size · zoom square exactly when
side · zoom ≠ 1 and used unresized otherwise, pasted at pixel offset
(col · size · zoom, row · size · zoom) with the tile's own alpha channel
as the mask. -/
def specPasteOfPlacement (palette_images : List Img) (size zoom : Nat)
    (p : Placement) : PasteOp :=
  let tile := palette_images.getD p.idx (Img.loaded "" [])
  let timg := if p.side * zoom ≠ 1 then Img.resized tile (p.side * size * zoom) else tile
  { img := timg, posX := p.col * size * zoom, posY := p.row * size * zoom, mask := timg }

/-- C8: for every image, palette, tile size S, zoom ≥ 1 and max block
side ≥ 1, the output canvas measures (cols·S·zoom) × (rows·S·zoom)
pixels, and the recorded paste operations are exactly one per placement,
in order, each placing tile idx at offset (col·S·zoom, row·S·zoom) with
the tile's alpha channel as the paste mask, resized to a side·S·zoom
square exactly when side·zoom ≠ 1 and unresized otherwise. -/
theorem mosaic_image_canvas_spec (img : SrcImage) (palette_colors : List Color)
    (palette_images : List Img) (size zoom max_emoji_block : Nat)
    (_hzoom : 1 ≤ zoom) (_hms : 1 ≤ max_emoji_block) :
    (mosaic_image img palette_colors palette_images size zoom max_emoji_block).width =
      gridCols img size * size * zoom ∧
    (mosaic_image img palette_colors palette_images size zoom max_emoji_block).height =
      gridRows img size * size * zoom ∧
    (mosaic_image img palette_colors palette_images size zoom max_emoji_block).pastes =
      (mosaicPlacements (build_emoji_grid img size palette_colors)
        (gridRows img size) (gridCols img size) max_emoji_block).map
        (specPasteOfPlacement palette_images size zoom) := by
  refine ⟨rfl, rfl, ?_⟩
  show (mosaicPlacements (build_emoji_grid img size palette_colors)
      (gridRows img size) (gridCols img size) max_emoji_block).map
      (pasteOfPlacement palette_images size zoom) = _
  apply List.map_congr_left
  intro p _
  simp only [pasteOfPlacement, specPasteOfPlacement]
  have hcond : (p.side ≠ 1 ∨ zoom ≠ 1) ↔ p.side * zoom ≠ 1 := by
    constructor
    · rintro (h | h) hmul
      · exact h (Nat.eq_one_of_mul_eq_one_right hmul)
      · exact h (Nat.eq_one_of_mul_eq_one_left hmul)
    · intro h
      by_cases hs : p.side = 1
      · by_cases hz : zoom = 1
        · exact absurd (by rw [hs, hz]) h
        · exact Or.inr hz
      · exact Or.inl hs
  rw [if_congr hcond rfl rfl]

theorem mosaic_image_canvas_spec_witness :
    (1 : Nat) ≤ 2 ∧ (1 : Nat) ≤ 3 ∧
      ((mosaic_image ⟨3, 3, fun _ _ => ((0 : ℚ), (0 : ℚ), (0 : ℚ))⟩
          [((0 : ℚ), (0 : ℚ), (0 : ℚ))] [Img.loaded "a.png" []] 2 2 3).width =
        gridCols ⟨3, 3, fun _ _ => ((0 : ℚ), (0 : ℚ), (0 : ℚ))⟩ 2 * 2 * 2 ∧
      (mosaic_image ⟨3, 3, fun _ _ => ((0 : ℚ), (0 : ℚ), (0 : ℚ))⟩
          [((0 : ℚ), (0 : ℚ), (0 : ℚ))] [Img.loaded "a.png" []] 2 2 3).height =
        gridRows ⟨3, 3, fun _ _ => ((0 : ℚ), (0 : ℚ), (0 : ℚ))⟩ 2 * 2 * 2 ∧
      (mosaic_image ⟨3, 3, fun _ _ => ((0 : ℚ), (0 : ℚ), (0 : ℚ))⟩
          [((0 : ℚ), (0 : ℚ), (0 : ℚ))] [Img.loaded "a.png" []] 2 2 3).pastes =
        (mosaicPlacements
          (build_emoji_grid ⟨3, 3, fun _ _ => ((0 : ℚ), (0 : ℚ), (0 : ℚ))⟩ 2
            [((0 : ℚ), (0 : ℚ), (0 : ℚ))])
          (gridRows ⟨3, 3, fun _ _ => ((0 : ℚ), (0 : ℚ), (0 : ℚ))⟩ 2)
          (gridCols ⟨3, 3, fun _ _ => ((0 : ℚ), (0 : ℚ), (0 : ℚ))⟩ 2) 3).map
          (specPasteOfPlacement [Img.loaded "a.png" []] 2 2)) :=
  ⟨by decide, by decide,
    mosaic_image_canvas_spec ⟨3, 3, fun _ _ => ((0 : ℚ), (0 : ℚ), (0 : ℚ))⟩
      [((0 : ℚ), (0 : ℚ), (0 : ℚ))] [Img.loaded "a.png" []] 2 2 3 (by decide) (by decide)⟩

/-! ### Palette file selection and ordering (C9) -/

/-- C9: palette construction considers exactly the directory entries
whose names match *.png (entries of any other format contribute neither
a color nor a render image), and the considered sequence is the sorted
permutation (lexicographic by file name) of those entries. -/
theorem build_emoji_palette_png_sorted (dir : List TileFile) (size : Nat) :
    build_emoji_palette dir size =
      build_emoji_palette (dir.filter fun f => f.name.endsWith ".png") size ∧
    List.Perm
      ((dir.filter fun f => f.name.endsWith ".png").mergeSort
        fun a b => decide (a.name ≤ b.name))
      (dir.filter fun f => f.name.endsWith ".png") ∧
    List.Pairwise (fun a b : TileFile => a.name ≤ b.name)
      ((dir.filter fun f => f.name.endsWith ".png").mergeSort
        fun a b => decide (a.name ≤ b.name)) := by
  refine ⟨?_, List.mergeSort_perm _ _, ?_⟩
  · unfold build_emoji_palette
    rw [List.filter_filter]
    simp
  · have hp := @List.sorted_mergeSort TileFile
      (fun a b : TileFile => decide (a.name ≤ b.name))
      (fun a b c hab hbc => by
        rw [decide_eq_true_eq] at hab hbc ⊢
        exact le_trans hab hbc)
      (fun a b => by
        rcases le_total a.name b.name with h | h
        · simp [h]
        · simp [h])
      (dir.filter fun f => f.name.endsWith ".png")
    exact hp.imp fun h => by rwa [decide_eq_true_eq] at h

/-! ### Configuration validation (C3) -/

/-- The configuration error kind the spec postulates. -/
inductive ConfigurationError where
  | emptyTileLibrary
  | nonPositiveTileSize
  | nonPositiveMaxBlockSide
  | nonPositiveZoom
deriving DecidableEq

/-- Modelled from the spec (sections 4.1 and 7): palette construction is
specified to fail with a ConfigurationError when the tile directory
contains zero usable images. The code has no such failure path; this
definition exists only to compare the specified behavior with the
embedded code. -/
def build_palette_spec (dir : List TileFile) (size : Nat) :
    Except ConfigurationError (List Color × List Img) :=
  if (dir.filter fun f => f.name.endsWith ".png").isEmpty then
    .error .emptyTileLibrary
  else
    .ok (build_emoji_palette dir size)

/-- C3 counterexample: on a tile directory with zero usable images the
code's palette construction succeeds with the empty palette instead of
failing (where the spec-modelled operation fails), and the driver clamps
a non-positive --max-emoji-block argument to 1 instead of rejecting it;
no ConfigurationError is ever produced by the code. -/
theorem configuration_errors_not_raised :
    build_emoji_palette [] 8 = ([], []) ∧
    (build_palette_spec [] 8).isOk = false ∧
    main_max_emoji_block (-3) = 1 := by
  refine ⟨?_, rfl, by decide⟩
  unfold build_emoji_palette
  simp

/-- C3 amended: the code performs no configuration validation: palette
construction on a directory with zero usable images returns the empty
palette with no error surfaced, and the main driver clamps a
non-positive max block side to 1 via max(1, ·) rather than rejecting
it (tile size and zoom are passed through unvalidated). -/
theorem no_configuration_validation (dir : List TileFile) (size : Nat) (n : Int)
    (hempty : (dir.filter fun f => f.name.endsWith ".png") = []) :
    build_emoji_palette dir size = ([], []) ∧
    main_max_emoji_block n = max 1 n ∧ 1 ≤ main_max_emoji_block n := by
  refine ⟨?_, rfl, le_max_left 1 n⟩
  unfold build_emoji_palette
  rw [hempty]
  simp

theorem no_configuration_validation_witness :
    ([] : List TileFile).filter (fun f => f.name.endsWith ".png") = [] ∧
      (build_emoji_palette [] 8 = ([], []) ∧
      main_max_emoji_block (-5) = max 1 (-5) ∧ 1 ≤ main_max_emoji_block (-5)) :=
  ⟨rfl, no_configuration_validation [] 8 (-5) rfl⟩

end Emojify
